import Mathlib

/-!
Shallow embedding of `src/sdk/c/hash/lib/sha256.c`, the streaming
SHA-256/224 hash engine.

Modelling conventions:
* machine integers are `Nat` with explicit reduction modulo `2^32`
  (for `uint32_t`) or `2^64` (for `uint64_t`) at the points where the C
  code truncates;
* the 64-byte buffer `ctx->message` (declared `uint32_t[16]` but written
  bytewise by `Hash_Update` and wordwise by `Hash_Final`) is modelled as a
  list of 64 byte values; 32-bit words are read and written through their
  little-endian byte encoding, which is the memory layout of the wasm
  target the code addresses with its explicit `bswap_32` calls;
* the `while` loop of `Hash_Update` and the unrolled 64 rounds of
  `sha256_process_block` are modelled by structurally recursive functions
  with an explicit iteration count.
-/


/-- C macro `ROTR32(dword, n) = dword >> n ^ dword << (32 - n)`, computed in
`uint32_t`. -/
def ROTR32 (x n : Nat) : Nat := (x >>> n ^^^ x <<< (32 - n)) % 2^32

/-- C macro `zkwasm_sha256_ch(x, y, z) = z ^ (x & (y ^ z))` (the optimized
form of the FIPS `Ch` function used by the non-wasm build). -/
def zkwasm_sha256_ch (x y z : Nat) : Nat := z ^^^ (x &&& (y ^^^ z))

/-- C macro `zkwasm_sha256_maj(x, y, z) = (x & y) ^ (z & (x ^ y))` (the
optimized form of the FIPS `Maj` function). -/
def zkwasm_sha256_maj (x y z : Nat) : Nat := (x &&& y) ^^^ (z &&& (x ^^^ y))

/-- C macro `zkwasm_sha256_lsigma0(x) = ROTR32(x,2) ^ ROTR32(x,13) ^ ROTR32(x,22)`. -/
def zkwasm_sha256_lsigma0 (x : Nat) : Nat := ROTR32 x 2 ^^^ ROTR32 x 13 ^^^ ROTR32 x 22

/-- C macro `zkwasm_sha256_lsigma1(x) = ROTR32(x,6) ^ ROTR32(x,11) ^ ROTR32(x,25)`. -/
def zkwasm_sha256_lsigma1 (x : Nat) : Nat := ROTR32 x 6 ^^^ ROTR32 x 11 ^^^ ROTR32 x 25

/-- C macro `zkwasm_sha256_ssigma0(x) = ROTR32(x,7) ^ ROTR32(x,18) ^ (x >> 3)`. -/
def zkwasm_sha256_ssigma0 (x : Nat) : Nat := ROTR32 x 7 ^^^ ROTR32 x 18 ^^^ (x >>> 3)

/-- C macro `zkwasm_sha256_ssigma1(x) = ROTR32(x,17) ^ ROTR32(x,19) ^ (x >> 10)`. -/
def zkwasm_sha256_ssigma1 (x : Nat) : Nat := ROTR32 x 17 ^^^ ROTR32 x 19 ^^^ (x >>> 10)

/-- C builtin `__builtin_bswap32`: reverse the four bytes of a 32-bit word. -/
def bswap_32 (x : Nat) : Nat :=
  x % 2^8 * 2^24 + x / 2^8 % 2^8 * 2^16 + x / 2^16 % 2^8 * 2^8 + x / 2^24 % 2^8

/-- The table `rhash_k256[64]` of SHA-256 round constants from the source,
in decimal; each line notes the hex values of the C initializer. -/
def rhash_k256 : List Nat :=
  [1116352408, 1899447441, 3049323471, 3921009573,  -- 428a2f98 71374491 b5c0fbcf e9b5dba5
   961987163, 1508970993, 2453635748, 2870763221,  -- 3956c25b 59f111f1 923f82a4 ab1c5ed5
   3624381080, 310598401, 607225278, 1426881987,  -- d807aa98 12835b01 243185be 550c7dc3
   1925078388, 2162078206, 2614888103, 3248222580,  -- 72be5d74 80deb1fe 9bdc06a7 c19bf174
   3835390401, 4022224774, 264347078, 604807628,  -- e49b69c1 efbe4786 0fc19dc6 240ca1cc
   770255983, 1249150122, 1555081692, 1996064986,  -- 2de92c6f 4a7484aa 5cb0a9dc 76f988da
   2554220882, 2821834349, 2952996808, 3210313671,  -- 983e5152 a831c66d b00327c8 bf597fc7
   3336571891, 3584528711, 113926993, 338241895,  -- c6e00bf3 d5a79147 06ca6351 14292967
   666307205, 773529912, 1294757372, 1396182291,  -- 27b70a85 2e1b2138 4d2c6dfc 53380d13
   1695183700, 1986661051, 2177026350, 2456956037,  -- 650a7354 766a0abb 81c2c92e 92722c85
   2730485921, 2820302411, 3259730800, 3345764771,  -- a2bfe8a1 a81a664b c24b8b70 c76c51a3
   3516065817, 3600352804, 4094571909, 275423344,  -- d192e819 d6990624 f40e3585 106aa070
   430227734, 506948616, 659060556, 883997877,  -- 19a4c116 1e376c08 2748774c 34b0bcb5
   958139571, 1322822218, 1537002063, 1747873779,  -- 391c0cb3 4ed8aa4a 5b9cca4f 682e6ff3
   1955562222, 2024104815, 2227730452, 2361852424,  -- 748f82ee 78a5636f 84c87814 8cc70208
   2428436474, 2756734187, 3204031479, 3329325298]  -- 90befffa a4506ceb bef9a3f7 c67178f2

/-- Little-endian 32-bit load of word `i` from the byte view of a buffer
(the layout the wasm target uses when the C code reads `uint32_t` words from
the type-punned byte buffer). -/
def getWord (buf : List Nat) (i : Nat) : Nat :=
  buf.getD (4*i) 0 + buf.getD (4*i+1) 0 * 2^8 + buf.getD (4*i+2) 0 * 2^16 +
    buf.getD (4*i+3) 0 * 2^24

/-- Store consecutive bytes into a buffer starting at byte offset `off`,
modelling the byte-copy loops of `Hash_Update` (`message8[index + i] = msg[i]`). -/
def writeBytes : List Nat → Nat → List Nat → List Nat
  | buf, _, [] => buf
  | buf, off, b :: bs => writeBytes (buf.set off b) (off+1) bs

/-- The four bytes of a 32-bit word in little-endian order. -/
def wordBytes (w : Nat) : List Nat :=
  [w % 2^8, w / 2^8 % 2^8, w / 2^16 % 2^8, w / 2^24 % 2^8]

/-- Little-endian 32-bit store of word value `w` at word index `i`, the byte
view of a `uint32_t` store into the type-punned buffer. -/
def setWord (buf : List Nat) (i w : Nat) : List Nat :=
  writeBytes buf (4*i) (wordBytes w)

/-- The eight working variables `A..H` of `sha256_process_block`. -/
structure Regs where
  a : Nat
  b : Nat
  c : Nat
  d : Nat
  e : Nat
  f : Nat
  g : Nat
  h : Nat

/-- One use of the C macro `ROUND(a,b,c,d,e,f,g,h,k,data)`:
`T1 = h + lsigma1(e) + ch(e,f,g) + k + data; d += T1;
h = T1 + lsigma0(a) + maj(a,b,c)`.  The unrolled source rotates the eight
variable names by one position between consecutive `ROUND` uses, which is
the permutation of fields performed here. -/
def roundStep (k w : Nat) (r : Regs) : Regs :=
  let T1 := (r.h + zkwasm_sha256_lsigma1 r.e + zkwasm_sha256_ch r.e r.f r.g + k + w) % 2^32
  { a := (T1 + zkwasm_sha256_lsigma0 r.a + zkwasm_sha256_maj r.a r.b r.c) % 2^32
    b := r.a
    c := r.b
    d := r.c
    e := (r.d + T1) % 2^32
    f := r.e
    g := r.f
    h := r.g }

/-- The message-schedule datum consumed at round `t` together with the
updated 16-entry circular buffer `W`.  Rounds 0..15 (`ROUND_1_16`) use
`W[n] = bswap_32(block[n])`; rounds 16..63 (`ROUND_17_64`) use the
`RECALCULATE_W` macro
`W[n] += ssigma1(W[(n-2) & 15]) + W[(n-7) & 15] + ssigma0(W[(n-15) & 15])`
at `n = t mod 16`. -/
def roundData (blk : List Nat) (W : List Nat) (t : Nat) : Nat × List Nat :=
  if t < 16 then
    let w := bswap_32 (getWord blk t)
    (w, W.set t w)
  else
    let w := (W.getD (t % 16) 0 +
      (zkwasm_sha256_ssigma1 (W.getD ((t - 2) % 16) 0) + W.getD ((t - 7) % 16) 0 +
        zkwasm_sha256_ssigma0 (W.getD ((t - 15) % 16) 0))) % 2^32
    (w, W.set (t % 16) w)

/-- `n` consecutive rounds of `sha256_process_block` starting at round `t`,
acting on the working variables and the circular schedule buffer. -/
def roundsFrom (blk : List Nat) : Nat → Nat → Regs × List Nat → Regs × List Nat
  | _, 0, s => s
  | t, n+1, s =>
    roundsFrom blk (t+1) n
      (roundStep (rhash_k256.getD t 0) (roundData blk s.2 t).1 s.1, (roundData blk s.2 t).2)

/-- C function `sha256_process_block(hash, block)`: run the 64 unrolled
rounds on the working variables loaded from `hash`, then add the final
working variables back into `hash` elementwise in `uint32_t`.  `block` is
the 64-byte block in memory order. -/
def sha256_process_block (hash : List Nat) (blk : List Nat) : List Nat :=
  let s0 : Regs := ⟨hash.getD 0 0, hash.getD 1 0, hash.getD 2 0, hash.getD 3 0,
                    hash.getD 4 0, hash.getD 5 0, hash.getD 6 0, hash.getD 7 0⟩
  let r := (roundsFrom blk 0 64 (s0, List.replicate 16 0)).1
  [(hash.getD 0 0 + r.a) % 2^32, (hash.getD 1 0 + r.b) % 2^32,
   (hash.getD 2 0 + r.c) % 2^32, (hash.getD 3 0 + r.d) % 2^32,
   (hash.getD 4 0 + r.e) % 2^32, (hash.getD 5 0 + r.f) % 2^32,
   (hash.getD 6 0 + r.g) % 2^32, (hash.getD 7 0 + r.h) % 2^32]

/-- C `struct sha256_ctx`: 64-byte leftover buffer (here as bytes), the
`uint64_t` byte count, the eight-word hash state, and the digest length in
bytes. -/
structure sha256_ctx where
  message : List Nat
  length : Nat
  hash : List Nat
  digest_length : Nat

/-- The table `SHA256_H0[8]` of SHA-256 initial hash values from the source. -/
def SHA256_H0 : List Nat :=
  [0x6a09e667, 0xbb67ae85, 0x3c6ef372, 0xa54ff53a,
   0x510e527f, 0x9b05688c, 0x1f83d9ab, 0x5be0cd19]

/-- C function `sha256_init()`: set `length = 0`,
`digest_length = sha256_hash_size = 32` and load `SHA256_H0` into the hash
state.  The leftover buffer is not touched. -/
def sha256_init (c : sha256_ctx) : sha256_ctx :=
  { c with length := 0, digest_length := 32, hash := SHA256_H0 }

/-- C function `Hash_Init(bits)`: calls `sha256_init()` unconditionally;
the `bits` argument is not used. -/
def Hash_Init (_bits : Nat) (c : sha256_ctx) : sha256_ctx := sha256_init c

/-- The `while (size >= sha256_block_size)` loop of `Hash_Update`: process
successive 64-byte slices of the remaining input directly.  The fuel
argument bounds the number of iterations; every call site passes at least
`msg.length`, which is enough for the loop to run to completion. -/
def updateLoop : List Nat → List Nat → Nat → List Nat × List Nat
  | h, msg, 0 => (h, msg)
  | h, msg, fuel+1 =>
    if 64 ≤ msg.length then
      updateLoop (sha256_process_block h (msg.take 64)) (msg.drop 64) fuel
    else (h, msg)

/-- `updateLoop` with its canonical fuel: the exact block-processing loop. -/
def absorb (h : List Nat) (msg : List Nat) : List Nat × List Nat :=
  updateLoop h msg msg.length

/-- C function `Hash_Update(size, data)` with `size = data.length`:
top up a partially filled buffer (processing it if it becomes full),
process whole 64-byte slices of the remaining input in place, and save the
final partial tail at the start of the buffer. -/
def Hash_Update (c : sha256_ctx) (data : List Nat) : sha256_ctx :=
  let size := data.length
  let index := c.length % 64
  let len2 := (c.length + size) % 2^64
  if index ≠ 0 then
    let left := 64 - index
    let fill := writeBytes c.message index (data.take (min size left))
    if size < left then
      { c with message := fill, length := len2 }
    else
      let h1 := sha256_process_block c.hash fill
      let rest := data.drop left
      let hl := updateLoop h1 rest rest.length
      { message := if hl.2.length ≠ 0 then writeBytes fill 0 hl.2 else fill
        length := len2
        hash := hl.1
        digest_length := c.digest_length }
  else
    let hl := updateLoop c.hash data data.length
    { c with
        message := if hl.2.length ≠ 0 then writeBytes c.message 0 hl.2 else c.message
        length := len2
        hash := hl.1 }

/-- Zero `n` consecutive 32-bit words of the buffer starting at word index
`i`, modelling the `message[index++] = 0` fill loops of `Hash_Final`. -/
def zeroWords : List Nat → Nat → Nat → List Nat
  | buf, _, 0 => buf
  | buf, i, n+1 => zeroWords (setWord buf i 0) (i+1) n

/-- Big-endian serialization of the hash state as done at the end of
`Hash_Final`: byte-swap every state word in place and copy the first `n`
bytes of the resulting byte view. -/
def outBytes (hash : List Nat) (n : Nat) : List Nat :=
  ((hash.map (fun w => wordBytes (bswap_32 w))).flatten).take n

/-- C function `Hash_Final(output)`, returning the digest bytes it writes:
mask the stale bits of the current partial word, xor in the `0x80` padding
byte, flush one zero-filled block if fewer than two words remain, zero-fill
up to word 14, store the bit length big-endian in words 14 and 15, process
the final block, and serialize the state. -/
def Hash_Final (c : sha256_ctx) : List Nat :=
  let index := c.length % 64 / 4
  let shift := c.length % 4 * 8
  let w2 := (getWord c.message index &&& ((0xFFFFFFFF <<< shift) % 2^32 ^^^ 0xFFFFFFFF)) ^^^
    ((0x80 <<< shift) % 2^32)
  let m1 := setWord c.message index w2
  let st :=
    if 14 < index + 1 then
      (sha256_process_block c.hash (zeroWords m1 (index+1) (16 - (index+1))),
       zeroWords m1 (index+1) (16 - (index+1)), 0)
    else (c.hash, m1, index + 1)
  let m2 := zeroWords st.2.1 st.2.2 (14 - st.2.2)
  let m3 := setWord (setWord m2 14 (bswap_32 ((c.length >>> 29) % 2^32))) 15
    (bswap_32 ((c.length <<< 3) % 2^64 % 2^32))
  outBytes (sha256_process_block st.1 m3) c.digest_length

/-- C function `SHA256_Digest(output, size, msg)`:
`Hash_Init(256); Hash_Update(size, msg); Hash_Final(output)` on the given
context (the C code uses the one static context `sctx`). -/
def SHA256_Digest (c : sha256_ctx) (msg : List Nat) : List Nat :=
  Hash_Final (Hash_Update (Hash_Init 256 c) msg)

/-- The static context `sctx` at program start: C zero-initialized storage. -/
def sctx0 : sha256_ctx :=
  { message := List.replicate 64 0, length := 0, hash := List.replicate 8 0,
    digest_length := 0 }

/-- A sequence of `Hash_Update` calls, one per chunk. -/
def updates (c : sha256_ctx) (chunks : List (List Nat)) : sha256_ctx :=
  chunks.foldl Hash_Update c

/-! ### Abstract simulation of `Hash_Update` -/

/-- The semantically valid bytes currently buffered: the first
`length mod 64` bytes of the 64-byte buffer. -/
def pendingOf (c : sha256_ctx) : List Nat := c.message.take (c.length % 64)

/-! ### Structure of `Hash_Final` -/

/-- The padded word written by `Hash_Final`: stale bits above the valid
prefix cleared, the `0x80` padding byte xored in at bit offset `shift`. -/
def padWord (c : sha256_ctx) : Nat :=
  (getWord c.message (c.length % 64 / 4) &&&
      ((0xFFFFFFFF <<< (c.length % 4 * 8)) % 2^32 ^^^ 0xFFFFFFFF)) ^^^
    ((0x80 <<< (c.length % 4 * 8)) % 2^32)

/-- The buffer after `Hash_Final` stores the padded word. -/
def padBuf (c : sha256_ctx) : List Nat :=
  setWord c.message (c.length % 64 / 4) (padWord c)

/-- The extra zero-filled block `Hash_Final` flushes when fewer than two
words remain after the padding word. -/
def extraBlock (c : sha256_ctx) : List Nat :=
  zeroWords (padBuf c) (c.length % 64 / 4 + 1) (16 - (c.length % 64 / 4 + 1))

/-- The last block `Hash_Final` compresses: zero fill up to word 14, then
the bit length `length * 8` stored big-endian in words 14 and 15. -/
def lastBlock (c : sha256_ctx) : List Nat :=
  setWord (setWord
    (if 14 < c.length % 64 / 4 + 1 then zeroWords (extraBlock c) 0 14
     else zeroWords (padBuf c) (c.length % 64 / 4 + 1) (14 - (c.length % 64 / 4 + 1)))
    14 (bswap_32 ((c.length >>> 29) % 2^32))) 15
    (bswap_32 ((c.length <<< 3) % 2^64 % 2^32))

/-- The sequence of blocks on which `Hash_Final` invokes the compression
engine. -/
def finalBlocks (c : sha256_ctx) : List (List Nat) :=
  if 14 < c.length % 64 / 4 + 1 then [extraBlock c, lastBlock c] else [lastBlock c]

/-! ### FIPS 180-4 reference compression function (from the specification) -/

/-- FIPS `ROTR(x, n)`: rotate a 32-bit word right by `n` positions. -/
def ROTR (x n : Nat) : Nat := x >>> n ||| (x <<< (32 - n)) % 2^32

/-- FIPS uppercase `Sigma0(x) = ROTR(x,2) xor ROTR(x,13) xor ROTR(x,22)`. -/
def Sigma0 (x : Nat) : Nat := ROTR x 2 ^^^ ROTR x 13 ^^^ ROTR x 22

/-- FIPS uppercase `Sigma1(x) = ROTR(x,6) xor ROTR(x,11) xor ROTR(x,25)`. -/
def Sigma1 (x : Nat) : Nat := ROTR x 6 ^^^ ROTR x 11 ^^^ ROTR x 25

/-- FIPS lowercase `sigma0(x) = ROTR(x,7) xor ROTR(x,18) xor (x >> 3)`. -/
def sigma0 (x : Nat) : Nat := ROTR x 7 ^^^ ROTR x 18 ^^^ x >>> 3

/-- FIPS lowercase `sigma1(x) = ROTR(x,17) xor ROTR(x,19) xor (x >> 10)`. -/
def sigma1 (x : Nat) : Nat := ROTR x 17 ^^^ ROTR x 19 ^^^ x >>> 10

/-- FIPS `Ch(x,y,z) = (x and y) xor (not x and z)`, complement in 32 bits. -/
def Ch (x y z : Nat) : Nat := (x &&& y) ^^^ ((x ^^^ 0xFFFFFFFF) &&& z)

/-- FIPS `Maj(x,y,z) = (x and y) xor (x and z) xor (y and z)`. -/
def Maj (x y z : Nat) : Nat := (x &&& y) ^^^ (x &&& z) ^^^ (y &&& z)

/-- One extension step of the full FIPS message schedule: append
`W[t] = sigma1(W[t-2]) + W[t-7] + sigma0(W[t-15]) + W[t-16]` (mod `2^32`)
at `t = W.length`. -/
def scheduleStep (W : List Nat) : List Nat :=
  W ++ [(sigma1 (W.getD (W.length - 2) 0) + W.getD (W.length - 7) 0 +
         sigma0 (W.getD (W.length - 15) 0) + W.getD (W.length - 16) 0) % 2^32]

def scheduleAux : List Nat → Nat → List Nat
  | W, 0 => W
  | W, n+1 => scheduleAux (scheduleStep W) n

/-- The full 64-entry FIPS message schedule from the 16 block words. -/
def schedule (M : List Nat) : List Nat := scheduleAux M 48

/-- The sixteen 32-bit big-endian words of a 64-byte block: the value the
source computes as `bswap_32(block[n])` on its little-endian target. -/
def beWords (blk : List Nat) : List Nat :=
  (List.range 16).map fun n => bswap_32 (getWord blk n)

/-- One FIPS compression round:
`T1 = h + Sigma1(e) + Ch(e,f,g) + K[t] + W[t]`, `T2 = Sigma0(a) + Maj(a,b,c)`,
then `(a,...,h) := (T1+T2, a, b, c, d+T1, e, f, g)`. -/
def fipsRound (k w : Nat) (r : Regs) : Regs :=
  let T1 := (r.h + Sigma1 r.e + Ch r.e r.f r.g + k + w) % 2^32
  let T2 := (Sigma0 r.a + Maj r.a r.b r.c) % 2^32
  ⟨(T1 + T2) % 2^32, r.a, r.b, r.c, (r.d + T1) % 2^32, r.e, r.f, r.g⟩

def fipsRounds (Ws : List Nat) : Nat → Nat → Regs → Regs
  | _, 0, r => r
  | t, n+1, r => fipsRounds Ws (t+1) n (fipsRound (rhash_k256.getD t 0) (Ws.getD t 0) r)

/-- The FIPS 180-4 SHA-256 compression function as a reference definition:
64 rounds over the full 64-entry schedule of the big-endian block words,
then the working variables are added back into the state mod `2^32`. -/
def fips_compress (hash M : List Nat) : List Nat :=
  let r := fipsRounds (schedule M) 0 64
    ⟨hash.getD 0 0, hash.getD 1 0, hash.getD 2 0, hash.getD 3 0,
     hash.getD 4 0, hash.getD 5 0, hash.getD 6 0, hash.getD 7 0⟩
  [(hash.getD 0 0 + r.a) % 2^32, (hash.getD 1 0 + r.b) % 2^32,
   (hash.getD 2 0 + r.c) % 2^32, (hash.getD 3 0 + r.d) % 2^32,
   (hash.getD 4 0 + r.e) % 2^32, (hash.getD 5 0 + r.f) % 2^32,
   (hash.getD 6 0 + r.g) % 2^32, (hash.getD 7 0 + r.h) % 2^32]

/-- The circular schedule buffer of `sha256_process_block` after `t` rounds. -/
def wEvol (blk : List Nat) : Nat → List Nat
  | 0 => List.replicate 16 0
  | t+1 => (roundData blk (wEvol blk t) t).2

/-- All eight working variables below `2^32`. -/
def RegsLt (r : Regs) : Prop :=
  r.a < 2^32 ∧ r.b < 2^32 ∧ r.c < 2^32 ∧ r.d < 2^32 ∧
  r.e < 2^32 ∧ r.f < 2^32 ∧ r.g < 2^32 ∧ r.h < 2^32

/-! ### The complete blocks consumed by the stream processor -/

/-- The maximal list of complete 64-byte blocks at the front of a byte
stream (fuel-indexed helper). -/
def completeBlocksF : Nat → List Nat → List (List Nat)
  | 0, _ => []
  | fuel+1, m => if 64 ≤ m.length then m.take 64 :: completeBlocksF fuel (m.drop 64) else []

/-- The complete 64-byte blocks at the front of a byte stream. -/
def completeBlocks (m : List Nat) : List (List Nat) := completeBlocksF m.length m

/-! ### The length encoding in the last block -/

/-- A big-endian 64-bit integer from eight bytes. -/
def be64 (bs : List Nat) : Nat :=
  bs.getD 0 0 * 2^56 + bs.getD 1 0 * 2^48 + bs.getD 2 0 * 2^40 + bs.getD 3 0 * 2^32 +
  bs.getD 4 0 * 2^24 + bs.getD 5 0 * 2^16 + bs.getD 6 0 * 2^8 + bs.getD 7 0

set_option maxRecDepth 10000

/-! ### Lemmas and claim theorems -/

/-! ### Pointwise access lemmas for the byte-buffer operations -/

lemma getD_set (l : List Nat) (i j v : Nat) :
    (l.set i v).getD j 0 = if i = j ∧ j < l.length then v else l.getD j 0 := by
  by_cases hij : i = j
  · subst hij
    by_cases hi : i < l.length
    · simp [List.getD_eq_getElem?_getD, List.getElem?_set, hi]
    · simp [List.getD_eq_getElem?_getD, List.getElem?_set, hi,
        List.getElem?_eq_none (Nat.le_of_not_lt hi)]
  · simp [List.getD_eq_getElem?_getD, List.getElem?_set, hij]

lemma getD_append (l1 l2 : List Nat) (j : Nat) :
    (l1 ++ l2).getD j 0 = if j < l1.length then l1.getD j 0 else l2.getD (j - l1.length) 0 := by
  by_cases h : j < l1.length <;> simp [List.getD_eq_getElem?_getD, List.getElem?_append, h]

lemma getD_take (l : List Nat) (n j : Nat) :
    (l.take n).getD j 0 = if j < n then l.getD j 0 else 0 := by
  by_cases h : j < n <;> simp [List.getD_eq_getElem?_getD, List.getElem?_take, h]

lemma getD_drop (l : List Nat) (n j : Nat) :
    (l.drop n).getD j 0 = l.getD (n + j) 0 := by
  simp [List.getD_eq_getElem?_getD, List.getElem?_drop]

lemma eq_of_getD (l1 l2 : List Nat) (hl : l1.length = l2.length)
    (h : ∀ j, j < l1.length → l1.getD j 0 = l2.getD j 0) : l1 = l2 := by
  apply List.ext_getElem hl
  intro n h1 h2
  have hn := h n h1
  rwa [List.getD_eq_getElem _ _ h1, List.getD_eq_getElem _ _ h2] at hn

lemma writeBytes_length : ∀ (d buf : List Nat) (off : Nat),
    (writeBytes buf off d).length = buf.length
  | [], _, _ => rfl
  | b :: bs, buf, off => by
    rw [writeBytes, writeBytes_length bs, List.length_set]

lemma writeBytes_getD : ∀ (d buf : List Nat) (off j : Nat),
    (writeBytes buf off d).getD j 0 =
      if off ≤ j ∧ j < off + d.length ∧ j < buf.length then d.getD (j - off) 0
      else buf.getD j 0
  | [], buf, off, j => by
    rw [writeBytes, if_neg (by simp; omega)]
  | b :: bs, buf, off, j => by
    rw [writeBytes, writeBytes_getD bs, List.length_set, getD_set]
    by_cases h1 : off ≤ j ∧ j < off + (b :: bs).length ∧ j < buf.length
    · rw [if_pos h1]
      by_cases h2 : j = off
      · subst h2
        rw [if_neg (by omega), if_pos (by omega)]
        simp
      · rw [if_pos (by simp at h1 ⊢; omega)]
        have hj : j - off = (j - (off + 1)) + 1 := by omega
        rw [hj, List.getD_cons_succ]
    · rw [if_neg h1, if_neg (by simp at h1 ⊢; omega), if_neg (by simp at h1 ⊢; omega)]

lemma take_writeBytes (buf d : List Nat) (off : Nat) (h : off + d.length ≤ buf.length) :
    (writeBytes buf off d).take (off + d.length) = buf.take off ++ d := by
  apply eq_of_getD
  · simp [writeBytes_length]
    omega
  · intro j hj
    simp only [List.length_take, writeBytes_length] at hj
    rw [getD_take, if_pos (by omega), writeBytes_getD, getD_append]
    by_cases hlo : off ≤ j
    · rw [if_pos (by omega), if_neg (by simp; omega)]
      have hlt : (List.take off buf).length = off := by
        simp [List.length_take]
        omega
      rw [hlt]
    · rw [if_neg (by omega), if_pos (by simp at hj ⊢; omega), getD_take, if_pos (by omega)]

lemma wordBytes_length (w : Nat) : (wordBytes w).length = 4 := rfl

lemma setWord_length (buf : List Nat) (i w : Nat) : (setWord buf i w).length = buf.length := by
  rw [setWord, writeBytes_length]

lemma setWord_getD (buf : List Nat) (i w j : Nat) :
    (setWord buf i w).getD j 0 =
      if 4*i ≤ j ∧ j < 4*i + 4 ∧ j < buf.length then (wordBytes w).getD (j - 4*i) 0
      else buf.getD j 0 := by
  rw [setWord, writeBytes_getD, wordBytes_length]

lemma wordBytes_zero_getD (k : Nat) : (wordBytes 0).getD k 0 = 0 := by
  match k with
  | 0 => rfl
  | 1 => rfl
  | 2 => rfl
  | 3 => rfl
  | n+4 => rfl

lemma zeroWords_length : ∀ (n : Nat) (buf : List Nat) (i : Nat),
    (zeroWords buf i n).length = buf.length
  | 0, _, _ => rfl
  | n+1, buf, i => by rw [zeroWords, zeroWords_length n, setWord_length]

lemma zeroWords_getD : ∀ (n : Nat) (buf : List Nat) (i j : Nat),
    (zeroWords buf i n).getD j 0 =
      if 4*i ≤ j ∧ j < 4*(i+n) ∧ j < buf.length then 0 else buf.getD j 0
  | 0, buf, i, j => by
    rw [zeroWords, if_neg (by omega)]
  | n+1, buf, i, j => by
    rw [zeroWords, zeroWords_getD n, setWord_length, setWord_getD]
    by_cases h1 : 4*i ≤ j ∧ j < 4*(i+(n+1)) ∧ j < buf.length
    · rw [if_pos h1]
      by_cases h2 : 4*(i+1) ≤ j
      · rw [if_pos (by omega)]
      · rw [if_neg (by omega), if_pos (by omega), wordBytes_zero_getD]
    · rw [if_neg h1, if_neg (by omega), if_neg (by omega)]

/-! ### The block-processing loop of `Hash_Update` -/

lemma absorb_stop (h msg : List Nat) (hlen : msg.length < 64) : absorb h msg = (h, msg) := by
  rw [absorb]
  cases hl : msg.length with
  | zero => rfl
  | succ n => rw [updateLoop, if_neg (by omega)]

lemma updateLoop_fuel (fuel : Nat) (h msg : List Nat) (hle : msg.length ≤ fuel) :
    updateLoop h msg fuel = absorb h msg := by
  induction fuel using Nat.strong_induction_on generalizing h msg with
  | _ fuel ih =>
    match fuel with
    | 0 =>
      have hm : msg = [] := List.length_eq_zero.mp (by omega)
      subst hm
      rfl
    | fuel+1 =>
      rw [updateLoop]
      by_cases hlen : 64 ≤ msg.length
      · rw [if_pos hlen, ih fuel (by omega) _ _ (by simp [List.length_drop]; omega)]
        obtain ⟨n, hn⟩ : ∃ n, msg.length = n + 1 := ⟨msg.length - 1, by omega⟩
        conv_rhs => rw [absorb, hn, updateLoop]
        rw [if_pos hlen, ih n (by omega) _ _ (by simp [List.length_drop]; omega)]
      · rw [if_neg hlen, absorb_stop _ _ (by omega)]

lemma absorb_peel (h b m : List Nat) (hb : b.length = 64) :
    absorb h (b ++ m) = absorb (sha256_process_block h b) m := by
  rw [absorb, List.length_append, hb]
  have h64 : 64 + m.length = (63 + m.length) + 1 := by omega
  rw [h64, updateLoop, if_pos (by simp [List.length_append]; omega)]
  rw [show (64:Nat) = b.length from hb.symm] at *
  rw [List.take_left, List.drop_left]
  exact updateLoop_fuel _ _ _ (by omega)

lemma absorb_absorb (h m1 m2 : List Nat) :
    absorb (absorb h m1).1 ((absorb h m1).2 ++ m2) = absorb h (m1 ++ m2) := by
  suffices H : ∀ (n : Nat) (h m1 : List Nat), m1.length ≤ n →
      absorb (absorb h m1).1 ((absorb h m1).2 ++ m2) = absorb h (m1 ++ m2) from
    H m1.length h m1 le_rfl
  intro n
  induction n with
  | zero =>
    intro h m1 hle
    have hm1 : m1 = [] := List.length_eq_zero.mp (by omega)
    subst hm1
    rfl
  | succ n ih =>
    intro h m1 hle
    by_cases hlen : m1.length < 64
    · rw [absorb_stop _ _ hlen]
    · have hsplit : m1 = m1.take 64 ++ m1.drop 64 := (List.take_append_drop 64 m1).symm
      have htk : (m1.take 64).length = 64 := by simp [List.length_take]; omega
      conv_lhs => rw [hsplit, absorb_peel _ _ _ htk]
      conv_rhs => rw [hsplit, List.append_assoc, absorb_peel _ _ _ htk]
      exact ih _ _ (by simp [List.length_drop]; omega)

lemma absorb_tail_spec (h m : List Nat) :
    (absorb h m).2.length = m.length % 64 ∧
    (absorb h m).2 = m.drop (m.length - m.length % 64) := by
  suffices H : ∀ (n : Nat) (h m : List Nat), m.length ≤ n →
      (absorb h m).2.length = m.length % 64 ∧
      (absorb h m).2 = m.drop (m.length - m.length % 64) from
    H m.length h m le_rfl
  intro n
  induction n with
  | zero =>
    intro h m hle
    rw [absorb_stop _ _ (by omega)]
    refine ⟨by show m.length = m.length % 64; omega, ?_⟩
    show m = m.drop (m.length - m.length % 64)
    rw [show m.length - m.length % 64 = 0 from by omega, List.drop_zero]
  | succ n ih =>
    intro h m hle
    by_cases hlen : m.length < 64
    · rw [absorb_stop _ _ hlen]
      refine ⟨by show m.length = m.length % 64; omega, ?_⟩
      show m = m.drop (m.length - m.length % 64)
      rw [show m.length - m.length % 64 = 0 from by omega, List.drop_zero]
    · have hsplit : m = m.take 64 ++ m.drop 64 := (List.take_append_drop 64 m).symm
      have htk : (m.take 64).length = 64 := by simp [List.length_take]; omega
      have hdl : (m.drop 64).length = m.length - 64 := by simp [List.length_drop]
      obtain ⟨ih1, ih2⟩ := ih (sha256_process_block h (m.take 64)) (m.drop 64)
        (by simp [List.length_drop]; omega)
      refine ⟨?_, ?_⟩
      · conv_lhs => rw [hsplit, absorb_peel _ _ _ htk]
        rw [ih1, hdl]
        omega
      · conv_lhs => rw [hsplit, absorb_peel _ _ _ htk]
        rw [ih2, hdl, List.drop_drop]
        congr 1
        omega

lemma pendingOf_length (c : sha256_ctx) (hm : c.message.length = 64) :
    (pendingOf c).length = c.length % 64 := by
  simp [pendingOf, List.length_take]
  omega

lemma update_case0 (c : sha256_ctx) (d : List Nat) (h0 : c.length % 64 = 0) :
    Hash_Update c d =
      { c with
          message := if (absorb c.hash d).2.length ≠ 0 then
              writeBytes c.message 0 (absorb c.hash d).2 else c.message
          length := (c.length + d.length) % 2^64
          hash := (absorb c.hash d).1 } := by
  simp [Hash_Update, h0, absorb]

lemma update_case_small (c : sha256_ctx) (d : List Nat) (hidx : c.length % 64 ≠ 0)
    (hsz : d.length < 64 - c.length % 64) :
    Hash_Update c d =
      { c with
          message := writeBytes c.message (c.length % 64) d
          length := (c.length + d.length) % 2^64 } := by
  have hmin : min d.length (64 - c.length % 64) = d.length := by omega
  simp [Hash_Update, hidx, hsz, hmin, List.take_length]

lemma update_case_fill (c : sha256_ctx) (d : List Nat) (hidx : c.length % 64 ≠ 0)
    (hsz : ¬ d.length < 64 - c.length % 64) :
    Hash_Update c d =
      { message :=
          if (absorb (sha256_process_block c.hash
                (writeBytes c.message (c.length % 64) (d.take (64 - c.length % 64))))
              (d.drop (64 - c.length % 64))).2.length ≠ 0 then
            writeBytes
              (writeBytes c.message (c.length % 64) (d.take (64 - c.length % 64))) 0
              (absorb (sha256_process_block c.hash
                  (writeBytes c.message (c.length % 64) (d.take (64 - c.length % 64))))
                (d.drop (64 - c.length % 64))).2
          else writeBytes c.message (c.length % 64) (d.take (64 - c.length % 64))
        length := (c.length + d.length) % 2^64
        hash := (absorb (sha256_process_block c.hash
            (writeBytes c.message (c.length % 64) (d.take (64 - c.length % 64))))
          (d.drop (64 - c.length % 64))).1
        digest_length := c.digest_length } := by
  have hmin : min d.length (64 - c.length % 64) = 64 - c.length % 64 := by omega
  simp [Hash_Update, hidx, hsz, hmin, absorb, List.length_drop]

lemma update_sim (c : sha256_ctx) (d : List Nat) (hm : c.message.length = 64) :
    (Hash_Update c d).hash = (absorb c.hash (pendingOf c ++ d)).1 ∧
    pendingOf (Hash_Update c d) = (absorb c.hash (pendingOf c ++ d)).2 ∧
    (Hash_Update c d).length = (c.length + d.length) % 2^64 ∧
    (Hash_Update c d).message.length = 64 ∧
    (Hash_Update c d).digest_length = c.digest_length := by
  by_cases hidx : c.length % 64 = 0
  · -- the buffer is empty: the input is absorbed directly
    have hpend : pendingOf c = [] := by simp [pendingOf, hidx]
    rw [update_case0 c d hidx, hpend, List.nil_append]
    obtain ⟨ht1, _⟩ := absorb_tail_spec c.hash d
    refine ⟨rfl, ?_, rfl, ?_, rfl⟩
    · by_cases htl : (absorb c.hash d).2.length = 0
      · have htl2 : (absorb c.hash d).2 = [] := List.length_eq_zero.mp htl
        have hmod : (c.length + d.length) % 2^64 % 64 = 0 := by omega
        simp [pendingOf, htl2]
        exact Or.inl (by omega)
      · have hwb := take_writeBytes c.message (absorb c.hash d).2 0 (by omega)
        have hmod : (c.length + d.length) % 2^64 % 64 = (absorb c.hash d).2.length := by
          omega
        simp only [pendingOf, htl, if_true, ne_eq, not_false_eq_true, if_pos]
        rw [hmod]
        simpa using hwb
    · by_cases htl : (absorb c.hash d).2.length = 0 <;>
        simp [htl, writeBytes_length, hm]
  · by_cases hsz : d.length < 64 - c.length % 64
    · -- partial fill, the buffer does not become full
      rw [update_case_small c d hidx hsz]
      have hstop : (pendingOf c ++ d).length < 64 := by
        simp [List.length_append, pendingOf_length c hm]
        omega
      rw [absorb_stop _ _ hstop]
      refine ⟨rfl, ?_, rfl, ?_, rfl⟩
      · have hmod : (c.length + d.length) % 2^64 % 64 = c.length % 64 + d.length := by
          omega
        have hwb := take_writeBytes c.message d (c.length % 64) (by omega)
        simp only [pendingOf]
        rw [hmod]
        exact hwb
      · simp [writeBytes_length, hm]
    · -- the buffer becomes full and is processed, then the loop runs
      have hleft : (d.take (64 - c.length % 64)).length = 64 - c.length % 64 := by
        simp [List.length_take]
        omega
      have hfill :
          writeBytes c.message (c.length % 64) (d.take (64 - c.length % 64)) =
            pendingOf c ++ d.take (64 - c.length % 64) := by
        have h2 := take_writeBytes c.message (d.take (64 - c.length % 64))
          (c.length % 64) (by omega)
        rw [hleft, show c.length % 64 + (64 - c.length % 64) = 64 from by omega,
          List.take_of_length_le (by rw [writeBytes_length, hm])] at h2
        exact h2
      have hsplit2 : pendingOf c ++ d =
          (pendingOf c ++ d.take (64 - c.length % 64)) ++ d.drop (64 - c.length % 64) := by
        rw [List.append_assoc, List.take_append_drop]
      have hblk : (pendingOf c ++ d.take (64 - c.length % 64)).length = 64 := by
        simp [List.length_append, pendingOf_length c hm, hleft]
        omega
      have habs : absorb c.hash (pendingOf c ++ d) =
          absorb (sha256_process_block c.hash
              (writeBytes c.message (c.length % 64) (d.take (64 - c.length % 64))))
            (d.drop (64 - c.length % 64)) := by
        rw [hsplit2, absorb_peel _ _ _ hblk, hfill]
      rw [update_case_fill c d hidx hsz, habs]
      obtain ⟨ht1, _⟩ := absorb_tail_spec
        (sha256_process_block c.hash
          (writeBytes c.message (c.length % 64) (d.take (64 - c.length % 64))))
        (d.drop (64 - c.length % 64))
      rw [List.length_drop] at ht1
      refine ⟨rfl, ?_, rfl, ?_, rfl⟩
      · set tl := (absorb (sha256_process_block c.hash
            (writeBytes c.message (c.length % 64) (d.take (64 - c.length % 64))))
          (d.drop (64 - c.length % 64))).2 with htl_def
        by_cases htl : tl.length = 0
        · have htl2 : tl = [] := List.length_eq_zero.mp htl
          have hmod : (c.length + d.length) % 2^64 % 64 = 0 := by omega
          simp [pendingOf, htl2]
          exact Or.inl (by omega)
        · have hwb := take_writeBytes
            (writeBytes c.message (c.length % 64) (d.take (64 - c.length % 64))) tl 0
            (by rw [writeBytes_length, hm]; omega)
          have hmod : (c.length + d.length) % 2^64 % 64 = tl.length := by omega
          simp only [pendingOf, htl, if_true, ne_eq, not_false_eq_true, if_pos]
          rw [hmod]
          simpa using hwb
      · by_cases htl : (absorb (sha256_process_block c.hash
            (writeBytes c.message (c.length % 64) (d.take (64 - c.length % 64))))
          (d.drop (64 - c.length % 64))).2.length = 0 <;>
          simp [htl, writeBytes_length, hm]

lemma updates_sim (chunks : List (List Nat)) (c : sha256_ctx)
    (hm : c.message.length = 64) (hl : c.length < 2^64) :
    (updates c chunks).hash = (absorb c.hash (pendingOf c ++ chunks.flatten)).1 ∧
    pendingOf (updates c chunks) = (absorb c.hash (pendingOf c ++ chunks.flatten)).2 ∧
    (updates c chunks).length = (c.length + chunks.flatten.length) % 2^64 ∧
    (updates c chunks).message.length = 64 ∧
    (updates c chunks).digest_length = c.digest_length := by
  induction chunks generalizing c with
  | nil =>
    have hstop : (pendingOf c ++ ([] : List (List Nat)).flatten).length < 64 := by
      simp [pendingOf_length c hm]
      omega
    rw [absorb_stop _ _ hstop]
    refine ⟨rfl, by simp [updates], by simp [updates]; omega, hm, rfl⟩
  | cons d ds ih =>
    have hstep := update_sim c d hm
    obtain ⟨e1, e2, e3, e4, e5⟩ := hstep
    have hrec := ih (Hash_Update c d) e4 (by rw [e3]; exact Nat.mod_lt _ (by norm_num))
    obtain ⟨f1, f2, f3, f4, f5⟩ := hrec
    have habs : absorb (Hash_Update c d).hash
        (pendingOf (Hash_Update c d) ++ ds.flatten) =
        absorb c.hash (pendingOf c ++ (d :: ds).flatten) := by
      rw [e1, e2, absorb_absorb]
      simp [List.append_assoc]
    have hupd : updates c (d :: ds) = updates (Hash_Update c d) ds := rfl
    refine ⟨?_, ?_, ?_, ?_, ?_⟩
    · rw [hupd, f1, habs]
    · rw [hupd, f2, habs]
    · rw [hupd, f3, e3]
      simp [List.flatten_cons, List.length_append]
      omega
    · rw [hupd]
      exact f4
    · rw [hupd, f5, e5]

lemma Hash_Final_eq (c : sha256_ctx) :
    Hash_Final c =
      outBytes ((finalBlocks c).foldl sha256_process_block c.hash) c.digest_length := by
  by_cases hcase : 14 < c.length % 64 / 4 + 1 <;>
    simp [Hash_Final, finalBlocks, lastBlock, extraBlock, padBuf, padWord, hcase]

lemma land_two_pow_sub_one (x k : Nat) : x &&& (2^k - 1) = x % 2^k := by
  apply Nat.eq_of_testBit_eq
  intro i
  rw [Nat.testBit_and, Nat.testBit_two_pow_sub_one, Nat.testBit_mod_two_pow, Bool.and_comm]

lemma getD_agree_of_take_eq (l1 l2 : List Nat) (k j : Nat) (h : l1.take k = l2.take k)
    (hj : j < k) : l1.getD j 0 = l2.getD j 0 := by
  have e1 := getD_take l1 k j
  have e2 := getD_take l2 k j
  rw [if_pos hj] at e1 e2
  rw [← e1, ← e2, h]

lemma masked_word_congr (m1 m2 : List Nat) (n : Nat)
    (hagree : ∀ j, j < n % 64 → m1.getD j 0 = m2.getD j 0) :
    getWord m1 (n % 64 / 4) &&& ((0xFFFFFFFF <<< (n % 4 * 8)) % 2^32 ^^^ 0xFFFFFFFF) =
    getWord m2 (n % 64 / 4) &&& ((0xFFFFFFFF <<< (n % 4 * 8)) % 2^32 ^^^ 0xFFFFFFFF) := by
  have h4 : n % 4 = 0 ∨ n % 4 = 1 ∨ n % 4 = 2 ∨ n % 4 = 3 := by omega
  have hqr : n % 64 % 4 = n % 4 := by omega
  rcases h4 with h | h | h | h <;> rw [h]
  · rw [show (0xFFFFFFFF <<< (0 * 8)) % 2^32 ^^^ 0xFFFFFFFF = 0 from by decide]
    simp
  · rw [show (0xFFFFFFFF <<< (1 * 8)) % 2^32 ^^^ 0xFFFFFFFF = 2^8 - 1 from by decide,
      land_two_pow_sub_one, land_two_pow_sub_one]
    have hb0 := hagree (4 * (n % 64 / 4)) (by omega)
    unfold getWord
    omega
  · rw [show (0xFFFFFFFF <<< (2 * 8)) % 2^32 ^^^ 0xFFFFFFFF = 2^16 - 1 from by decide,
      land_two_pow_sub_one, land_two_pow_sub_one]
    have hb0 := hagree (4 * (n % 64 / 4)) (by omega)
    have hb1 := hagree (4 * (n % 64 / 4) + 1) (by omega)
    unfold getWord
    omega
  · rw [show (0xFFFFFFFF <<< (3 * 8)) % 2^32 ^^^ 0xFFFFFFFF = 2^24 - 1 from by decide,
      land_two_pow_sub_one, land_two_pow_sub_one]
    have hb0 := hagree (4 * (n % 64 / 4)) (by omega)
    have hb1 := hagree (4 * (n % 64 / 4) + 1) (by omega)
    have hb2 := hagree (4 * (n % 64 / 4) + 2) (by omega)
    unfold getWord
    omega

lemma padWord_congr (c1 c2 : sha256_ctx) (hlen : c1.length = c2.length)
    (hagree : ∀ j, j < c1.length % 64 → c1.message.getD j 0 = c2.message.getD j 0) :
    padWord c1 = padWord c2 := by
  unfold padWord
  rw [← hlen]
  exact congrArg (fun x => x ^^^ ((0x80 <<< (c1.length % 4 * 8)) % 2^32))
    (masked_word_congr c1.message c2.message c1.length hagree)

lemma padBuf_agree (c1 c2 : sha256_ctx) (h1 : c1.message.length = 64)
    (h2 : c2.message.length = 64) (hlen : c1.length = c2.length)
    (hagree : ∀ j, j < c1.length % 64 → c1.message.getD j 0 = c2.message.getD j 0) :
    ∀ j, j < 4 * (c1.length % 64 / 4) + 4 →
      (padBuf c1).getD j 0 = (padBuf c2).getD j 0 := by
  intro j hj
  unfold padBuf
  rw [← hlen, ← padWord_congr c1 c2 hlen hagree, setWord_getD, setWord_getD, h1, h2]
  split_ifs with hc
  · rfl
  · apply hagree
    omega

lemma padBuf_length (c : sha256_ctx) (hm : c.message.length = 64) :
    (padBuf c).length = 64 := by
  unfold padBuf
  rw [setWord_length, hm]

lemma extraBlock_congr (c1 c2 : sha256_ctx) (h1 : c1.message.length = 64)
    (h2 : c2.message.length = 64) (hlen : c1.length = c2.length)
    (hagree : ∀ j, j < c1.length % 64 → c1.message.getD j 0 = c2.message.getD j 0) :
    extraBlock c1 = extraBlock c2 := by
  unfold extraBlock
  rw [← hlen]
  apply eq_of_getD
  · rw [zeroWords_length, zeroWords_length, padBuf_length c1 h1, padBuf_length c2 h2]
  · intro j hj
    rw [zeroWords_length, padBuf_length c1 h1] at hj
    rw [zeroWords_getD, zeroWords_getD, padBuf_length c1 h1, padBuf_length c2 h2]
    split_ifs with hc
    · rfl
    · apply padBuf_agree c1 c2 h1 h2 hlen hagree
      omega

lemma lastBlock_congr (c1 c2 : sha256_ctx) (h1 : c1.message.length = 64)
    (h2 : c2.message.length = 64) (hlen : c1.length = c2.length)
    (hagree : ∀ j, j < c1.length % 64 → c1.message.getD j 0 = c2.message.getD j 0) :
    lastBlock c1 = lastBlock c2 := by
  unfold lastBlock
  rw [← hlen, ← extraBlock_congr c1 c2 h1 h2 hlen hagree]
  by_cases hcase : 14 < c1.length % 64 / 4 + 1
  · rw [if_pos hcase, if_pos hcase]
  · rw [if_neg hcase, if_neg hcase]
    apply eq_of_getD
    · simp only [setWord_length, zeroWords_length, padBuf_length c1 h1, padBuf_length c2 h2]
    · intro j hj
      simp only [setWord_length, zeroWords_length, padBuf_length c1 h1] at hj
      simp only [setWord_getD, zeroWords_getD, setWord_length, zeroWords_length,
        padBuf_length c1 h1, padBuf_length c2 h2]
      split_ifs <;> first
        | rfl
        | omega
        | (apply padBuf_agree c1 c2 h1 h2 hlen hagree; omega)

lemma final_congr (c1 c2 : sha256_ctx) (h1 : c1.message.length = 64)
    (h2 : c2.message.length = 64) (hlen : c1.length = c2.length)
    (hh : c1.hash = c2.hash) (hp : pendingOf c1 = pendingOf c2)
    (hd : c1.digest_length = c2.digest_length) :
    Hash_Final c1 = Hash_Final c2 := by
  have hagree : ∀ j, j < c1.length % 64 → c1.message.getD j 0 = c2.message.getD j 0 := by
    intro j hj
    have hp2 := hp
    unfold pendingOf at hp2
    rw [← hlen] at hp2
    exact getD_agree_of_take_eq c1.message c2.message (c1.length % 64) j hp2 hj
  rw [Hash_Final_eq, Hash_Final_eq, ← hh, ← hd]
  unfold finalBlocks
  rw [← hlen, ← extraBlock_congr c1 c2 h1 h2 hlen hagree,
    ← lastBlock_congr c1 c2 h1 h2 hlen hagree]

/-! ### Equivalence of the optimized primitives with the FIPS forms -/

lemma testBit_mask32 (i : Nat) : (0xFFFFFFFF : Nat).testBit i = decide (i < 32) := by
  rw [show (0xFFFFFFFF : Nat) = 2^32 - 1 from by norm_num, Nat.testBit_two_pow_sub_one]

lemma testBit_high_false (x i : Nat) (hx : x < 2^32) (hi : 32 ≤ i) : x.testBit i = false :=
  Nat.testBit_eq_false_of_lt
    (lt_of_lt_of_le hx (Nat.pow_le_pow_right (by norm_num) hi))

lemma ROTR32_eq_ROTR (x n : Nat) (hx : x < 2^32) (h0 : 0 < n) (h32 : n < 32) :
    ROTR32 x n = ROTR x n := by
  unfold ROTR32 ROTR
  apply Nat.eq_of_testBit_eq
  intro i
  rw [Nat.testBit_mod_two_pow, Nat.testBit_xor, Nat.testBit_or, Nat.testBit_mod_two_pow,
    Nat.testBit_shiftRight, Nat.testBit_shiftLeft]
  by_cases hi : i < 32
  · by_cases hlo : 32 - n ≤ i
    · have ha : x.testBit (n + i) = false := testBit_high_false x _ hx (by omega)
      simp [hi, hlo, ha]
    · simp [hi, hlo]
  · have ha : x.testBit (n + i) = false := testBit_high_false x _ hx (by omega)
    simp [hi, ha]

lemma ch_eq_Ch (x y z : Nat) (hz : z < 2^32) : zkwasm_sha256_ch x y z = Ch x y z := by
  unfold zkwasm_sha256_ch Ch
  apply Nat.eq_of_testBit_eq
  intro i
  simp only [Nat.testBit_xor, Nat.testBit_and, testBit_mask32]
  by_cases hi : i < 32
  · simp only [hi, decide_True]
    cases x.testBit i <;> cases y.testBit i <;> cases z.testBit i <;> rfl
  · have hzb : z.testBit i = false := testBit_high_false z i hz (by omega)
    simp only [hi, decide_False, hzb]
    cases x.testBit i <;> cases y.testBit i <;> rfl

lemma maj_eq_Maj (x y z : Nat) : zkwasm_sha256_maj x y z = Maj x y z := by
  unfold zkwasm_sha256_maj Maj
  apply Nat.eq_of_testBit_eq
  intro i
  simp only [Nat.testBit_xor, Nat.testBit_and]
  cases x.testBit i <;> cases y.testBit i <;> cases z.testBit i <;> rfl

lemma lsigma0_eq (x : Nat) (hx : x < 2^32) : zkwasm_sha256_lsigma0 x = Sigma0 x := by
  unfold zkwasm_sha256_lsigma0 Sigma0
  rw [ROTR32_eq_ROTR x 2 hx (by norm_num) (by norm_num),
    ROTR32_eq_ROTR x 13 hx (by norm_num) (by norm_num),
    ROTR32_eq_ROTR x 22 hx (by norm_num) (by norm_num)]

lemma lsigma1_eq (x : Nat) (hx : x < 2^32) : zkwasm_sha256_lsigma1 x = Sigma1 x := by
  unfold zkwasm_sha256_lsigma1 Sigma1
  rw [ROTR32_eq_ROTR x 6 hx (by norm_num) (by norm_num),
    ROTR32_eq_ROTR x 11 hx (by norm_num) (by norm_num),
    ROTR32_eq_ROTR x 25 hx (by norm_num) (by norm_num)]

lemma ssigma0_eq (x : Nat) (hx : x < 2^32) : zkwasm_sha256_ssigma0 x = sigma0 x := by
  unfold zkwasm_sha256_ssigma0 sigma0
  rw [ROTR32_eq_ROTR x 7 hx (by norm_num) (by norm_num),
    ROTR32_eq_ROTR x 18 hx (by norm_num) (by norm_num)]

lemma ssigma1_eq (x : Nat) (hx : x < 2^32) : zkwasm_sha256_ssigma1 x = sigma1 x := by
  unfold zkwasm_sha256_ssigma1 sigma1
  rw [ROTR32_eq_ROTR x 17 hx (by norm_num) (by norm_num),
    ROTR32_eq_ROTR x 19 hx (by norm_num) (by norm_num)]

lemma bswap_32_lt (x : Nat) : bswap_32 x < 2^32 := by
  unfold bswap_32
  omega

/-! ### The full schedule versus the circular buffer -/

lemma scheduleStep_length (W : List Nat) : (scheduleStep W).length = W.length + 1 := by
  simp [scheduleStep]

lemma scheduleAux_length : ∀ (n : Nat) (W : List Nat),
    (scheduleAux W n).length = W.length + n
  | 0, W => rfl
  | n+1, W => by
    rw [scheduleAux, scheduleAux_length n, scheduleStep_length]
    omega

lemma scheduleAux_stable : ∀ (n : Nat) (W : List Nat) (j : Nat), j < W.length →
    (scheduleAux W n).getD j 0 = W.getD j 0
  | 0, _, _, _ => rfl
  | n+1, W, j, hj => by
    rw [scheduleAux, scheduleAux_stable n _ _ (by rw [scheduleStep_length]; omega)]
    unfold scheduleStep
    rw [getD_append, if_pos hj]

lemma scheduleAux_rec : ∀ (n : Nat) (W : List Nat), 16 ≤ W.length →
    ∀ t, W.length ≤ t → t < W.length + n →
    (scheduleAux W n).getD t 0 =
      (sigma1 ((scheduleAux W n).getD (t-2) 0) + (scheduleAux W n).getD (t-7) 0 +
       sigma0 ((scheduleAux W n).getD (t-15) 0) + (scheduleAux W n).getD (t-16) 0) % 2^32
  | 0, _, _, t, h1, h2 => by omega
  | n+1, W, h16, t, h1, h2 => by
    by_cases ht : t = W.length
    · subst ht
      rw [scheduleAux]
      have hsa : ∀ j, j < W.length + 1 →
          (scheduleAux (scheduleStep W) n).getD j 0 = (scheduleStep W).getD j 0 :=
        fun j hj => scheduleAux_stable n _ j (by rw [scheduleStep_length]; omega)
      rw [hsa W.length (by omega), hsa (W.length - 2) (by omega),
        hsa (W.length - 7) (by omega), hsa (W.length - 15) (by omega),
        hsa (W.length - 16) (by omega)]
      unfold scheduleStep
      rw [getD_append, if_neg (by omega), getD_append, if_pos (by omega),
        getD_append, if_pos (by omega), getD_append, if_pos (by omega),
        getD_append, if_pos (by omega)]
      rw [show W.length - W.length = 0 from by omega]
      rfl
    · rw [scheduleAux]
      exact scheduleAux_rec n (scheduleStep W) (by rw [scheduleStep_length]; omega) t
        (by rw [scheduleStep_length]; omega) (by rw [scheduleStep_length]; omega)

lemma scheduleAux_lt : ∀ (n : Nat) (W : List Nat), (∀ j, W.getD j 0 < 2^32) →
    ∀ j, (scheduleAux W n).getD j 0 < 2^32
  | 0, _, hW, j => hW j
  | n+1, W, hW, j => by
    rw [scheduleAux]
    apply scheduleAux_lt n
    intro k
    unfold scheduleStep
    rw [getD_append]
    split_ifs
    · exact hW k
    · rcases hk : k - W.length with _ | m
      · rw [List.getD_cons_zero]
        omega
      · rw [List.getD_cons_succ]
        simp

lemma beWords_length (blk : List Nat) : (beWords blk).length = 16 := by
  simp [beWords]

lemma beWords_getD (blk : List Nat) (t : Nat) (ht : t < 16) :
    (beWords blk).getD t 0 = bswap_32 (getWord blk t) := by
  unfold beWords
  rw [List.getD_eq_getElem?_getD]
  simp [List.getElem?_map, List.getElem?_range, ht]

lemma beWords_getD_lt (blk : List Nat) (j : Nat) : (beWords blk).getD j 0 < 2^32 := by
  by_cases hj : j < 16
  · rw [beWords_getD blk j hj]
    exact bswap_32_lt _
  · rw [List.getD_eq_default]
    · norm_num
    · rw [beWords_length]
      omega

lemma schedule_lt (blk : List Nat) (j : Nat) :
    (schedule (beWords blk)).getD j 0 < 2^32 :=
  scheduleAux_lt 48 (beWords blk) (beWords_getD_lt blk) j

lemma schedule_stable (blk : List Nat) (t : Nat) (ht : t < 16) :
    (schedule (beWords blk)).getD t 0 = bswap_32 (getWord blk t) := by
  unfold schedule
  rw [scheduleAux_stable 48 _ t (by rw [beWords_length]; omega), beWords_getD blk t ht]

lemma schedule_rec (blk : List Nat) (t : Nat) (h1 : 16 ≤ t) (h2 : t < 64) :
    (schedule (beWords blk)).getD t 0 =
      (sigma1 ((schedule (beWords blk)).getD (t-2) 0) +
       (schedule (beWords blk)).getD (t-7) 0 +
       sigma0 ((schedule (beWords blk)).getD (t-15) 0) +
       (schedule (beWords blk)).getD (t-16) 0) % 2^32 := by
  unfold schedule
  exact scheduleAux_rec 48 (beWords blk) (by rw [beWords_length]) t
    (by rw [beWords_length]; omega) (by rw [beWords_length]; omega)

lemma wEvol_length (blk : List Nat) : ∀ t, (wEvol blk t).length = 16
  | 0 => by simp [wEvol]
  | t+1 => by
    rw [wEvol]
    unfold roundData
    split_ifs <;> simp [List.length_set, wEvol_length blk t]

lemma roundData_snd (blk W : List Nat) (t : Nat) :
    (roundData blk W t).2 = W.set (t % 16) (roundData blk W t).1 := by
  unfold roundData
  split_ifs with h
  · rw [Nat.mod_eq_of_lt h]
  · rfl

lemma roundData_eq (blk : List Nat) (t : Nat) (ht : t < 64)
    (hinv : ∀ m, m < t → t ≤ m + 16 →
      (wEvol blk t).getD (m % 16) 0 = (schedule (beWords blk)).getD m 0) :
    (roundData blk (wEvol blk t) t).1 = (schedule (beWords blk)).getD t 0 := by
  by_cases h16 : t < 16
  · unfold roundData
    rw [if_pos h16, schedule_stable blk t h16]
  · have hrw : (roundData blk (wEvol blk t) t).1 =
        ((wEvol blk t).getD (t % 16) 0 +
          (zkwasm_sha256_ssigma1 ((wEvol blk t).getD ((t - 2) % 16) 0) +
            (wEvol blk t).getD ((t - 7) % 16) 0 +
            zkwasm_sha256_ssigma0 ((wEvol blk t).getD ((t - 15) % 16) 0))) % 2^32 := by
      simp [roundData, h16]
    have e2 := hinv (t-2) (by omega) (by omega)
    have e7 := hinv (t-7) (by omega) (by omega)
    have e15 := hinv (t-15) (by omega) (by omega)
    have e16 := hinv (t-16) (by omega) (by omega)
    rw [hrw, show t % 16 = (t - 16) % 16 from by omega]
    rw [e2, e7, e15, e16, ssigma1_eq _ (schedule_lt blk (t-2)),
      ssigma0_eq _ (schedule_lt blk (t-15)), schedule_rec blk t (by omega) ht]
    omega

lemma wEvol_inv (blk : List Nat) : ∀ (t : Nat), t ≤ 64 → ∀ m, m < t → t ≤ m + 16 →
    (wEvol blk t).getD (m % 16) 0 = (schedule (beWords blk)).getD m 0
  | 0, _, m, hm, _ => by omega
  | t+1, ht, m, hm, hm16 => by
    rw [wEvol, roundData_snd, getD_set, wEvol_length]
    by_cases hmt : m = t
    · subst hmt
      rw [if_pos ⟨rfl, by omega⟩]
      exact roundData_eq blk m (by omega) (wEvol_inv blk m (by omega))
    · rw [if_neg (by omega)]
      exact wEvol_inv blk t (by omega) m (by omega) (by omega)

lemma roundData_schedule (blk : List Nat) (t : Nat) (ht : t < 64) :
    (roundData blk (wEvol blk t) t).1 = (schedule (beWords blk)).getD t 0 :=
  roundData_eq blk t ht (wEvol_inv blk t (by omega))

/-! ### The round loop versus the FIPS round loop -/

lemma roundStep_eq_fipsRound (k w : Nat) (r : Regs) (hr : RegsLt r) :
    roundStep k w r = fipsRound k w r := by
  obtain ⟨ha, hb, hc, hd, he, hf, hg, hh⟩ := hr
  simp only [roundStep, fipsRound]
  rw [lsigma1_eq _ he, ch_eq_Ch _ _ _ hg, lsigma0_eq _ ha, maj_eq_Maj]
  simp only [Regs.mk.injEq]
  refine ⟨by omega, trivial, trivial, trivial, trivial, trivial, trivial, trivial⟩

lemma roundStep_lt (k w : Nat) (r : Regs) (hr : RegsLt r) : RegsLt (roundStep k w r) := by
  obtain ⟨ha, hb, hc, hd, he, hf, hg, hh⟩ := hr
  simp only [roundStep, RegsLt]
  refine ⟨by omega, ha, hb, hc, by omega, he, hf, hg⟩

lemma roundsFrom_eq_fips (blk : List Nat) : ∀ (n t : Nat) (r : Regs), t + n ≤ 64 →
    RegsLt r →
    (roundsFrom blk t n (r, wEvol blk t)).1 = fipsRounds (schedule (beWords blk)) t n r
  | 0, _, _, _, _ => rfl
  | n+1, t, r, hle, hr => by
    have hsnd : (roundData blk (wEvol blk t) t).2 = wEvol blk (t+1) := rfl
    have hdat : (roundData blk (wEvol blk t) t).1 = (schedule (beWords blk)).getD t 0 :=
      roundData_schedule blk t (by omega)
    have hlt := roundStep_lt (rhash_k256.getD t 0) ((schedule (beWords blk)).getD t 0) r hr
    rw [roundsFrom, fipsRounds]
    simp only [hsnd, hdat]
    rw [roundStep_eq_fipsRound _ _ _ hr]
    exact roundsFrom_eq_fips blk n (t+1) _ (by omega)
      (by rw [← roundStep_eq_fipsRound _ _ _ hr]; exact hlt)

lemma getD_lt_of_forall (l : List Nat) (h : ∀ w ∈ l, w < 2^32) (j : Nat) :
    l.getD j 0 < 2^32 := by
  by_cases hj : j < l.length
  · rw [List.getD_eq_getElem _ _ hj]
    exact h _ (List.getElem_mem hj)
  · rw [List.getD_eq_default _ _ (by omega)]
    norm_num

lemma process_block_fips (hash blk : List Nat) (hh : ∀ w ∈ hash, w < 2^32) :
    sha256_process_block hash blk = fips_compress hash (beWords blk) := by
  have hg := getD_lt_of_forall hash hh
  simp only [sha256_process_block, fips_compress]
  rw [show (List.replicate 16 0 : List Nat) = wEvol blk 0 from rfl,
    roundsFrom_eq_fips blk 64 0 _ (by omega)
      ⟨hg 0, hg 1, hg 2, hg 3, hg 4, hg 5, hg 6, hg 7⟩]

lemma completeBlocks_small (m : List Nat) (hlen : m.length < 64) :
    completeBlocks m = [] := by
  unfold completeBlocks
  cases hl : m.length with
  | zero => rfl
  | succ n => rw [completeBlocksF, if_neg (by omega)]

lemma completeBlocksF_fuel (fuel : Nat) (m : List Nat) (hle : m.length ≤ fuel) :
    completeBlocksF fuel m = completeBlocks m := by
  induction fuel using Nat.strong_induction_on generalizing m with
  | _ fuel ih =>
    match fuel with
    | 0 =>
      have hm : m = [] := List.length_eq_zero.mp (by omega)
      subst hm
      rfl
    | fuel+1 =>
      rw [completeBlocksF]
      by_cases hlen : 64 ≤ m.length
      · rw [if_pos hlen, ih fuel (by omega) _ (by simp [List.length_drop]; omega)]
        obtain ⟨n, hn⟩ : ∃ n, m.length = n + 1 := ⟨m.length - 1, by omega⟩
        conv_rhs => rw [completeBlocks, hn, completeBlocksF]
        rw [if_pos hlen, ih n (by omega) _ (by simp [List.length_drop]; omega)]
      · rw [if_neg hlen, completeBlocks_small _ (by omega)]

lemma completeBlocks_peel (b m : List Nat) (hb : b.length = 64) :
    completeBlocks (b ++ m) = b :: completeBlocks m := by
  rw [completeBlocks, List.length_append, hb]
  have h64 : 64 + m.length = (63 + m.length) + 1 := by omega
  rw [h64, completeBlocksF, if_pos (by simp [List.length_append]; omega)]
  rw [show (64:Nat) = b.length from hb.symm] at *
  rw [List.take_left, List.drop_left]
  rw [completeBlocksF_fuel _ _ (by omega)]

lemma absorb_fst_blocks (h m : List Nat) :
    (absorb h m).1 = (completeBlocks m).foldl sha256_process_block h := by
  suffices H : ∀ (n : Nat) (h m : List Nat), m.length ≤ n →
      (absorb h m).1 = (completeBlocks m).foldl sha256_process_block h from
    H m.length h m le_rfl
  intro n
  induction n with
  | zero =>
    intro h m hle
    rw [absorb_stop _ _ (by omega), completeBlocks_small _ (by omega)]
    rfl
  | succ n ih =>
    intro h m hle
    by_cases hlen : m.length < 64
    · rw [absorb_stop _ _ hlen, completeBlocks_small _ hlen]
      rfl
    · have hsplit : m = m.take 64 ++ m.drop 64 := (List.take_append_drop 64 m).symm
      have htk : (m.take 64).length = 64 := by simp [List.length_take]; omega
      conv_lhs => rw [hsplit, absorb_peel _ _ _ htk]
      conv_rhs => rw [hsplit, completeBlocks_peel _ _ htk]
      rw [List.foldl_cons]
      exact ih _ _ (by simp [List.length_drop]; omega)

lemma extraBlock_length (c : sha256_ctx) (hm : c.message.length = 64) :
    (extraBlock c).length = 64 := by
  unfold extraBlock
  rw [zeroWords_length, padBuf_length c hm]

lemma lastBlock_length (c : sha256_ctx) (hm : c.message.length = 64) :
    (lastBlock c).length = 64 := by
  unfold lastBlock
  rw [setWord_length, setWord_length]
  split_ifs
  · rw [zeroWords_length, extraBlock_length c hm]
  · rw [zeroWords_length, padBuf_length c hm]

lemma lastBlock_getD_word14 (c : sha256_ctx) (hm : c.message.length = 64)
    (k : Nat) (hk : k < 4) :
    (lastBlock c).getD (56 + k) 0 =
      (wordBytes (bswap_32 ((c.length >>> 29) % 2^32))).getD k 0 := by
  unfold lastBlock
  have hB : (if 14 < c.length % 64 / 4 + 1 then zeroWords (extraBlock c) 0 14
      else zeroWords (padBuf c) (c.length % 64 / 4 + 1)
        (14 - (c.length % 64 / 4 + 1))).length = 64 := by
    split_ifs
    · rw [zeroWords_length, extraBlock_length c hm]
    · rw [zeroWords_length, padBuf_length c hm]
  rw [setWord_getD, setWord_length, setWord_getD, hB,
    if_neg (by omega), if_pos (by omega),
    show 56 + k - 4 * 14 = k from by omega]

lemma lastBlock_getD_word15 (c : sha256_ctx) (hm : c.message.length = 64)
    (k : Nat) (hk : k < 4) :
    (lastBlock c).getD (60 + k) 0 =
      (wordBytes (bswap_32 ((c.length <<< 3) % 2^64 % 2^32))).getD k 0 := by
  unfold lastBlock
  have hB : (if 14 < c.length % 64 / 4 + 1 then zeroWords (extraBlock c) 0 14
      else zeroWords (padBuf c) (c.length % 64 / 4 + 1)
        (14 - (c.length % 64 / 4 + 1))).length = 64 := by
    split_ifs
    · rw [zeroWords_length, extraBlock_length c hm]
    · rw [zeroWords_length, padBuf_length c hm]
  rw [setWord_getD, setWord_length, hB,
    if_pos (by omega), show 60 + k - 4 * 15 = k from by omega]

lemma wordBytes_getD0 (w : Nat) : (wordBytes w).getD 0 0 = w % 2^8 := rfl

lemma wordBytes_getD1 (w : Nat) : (wordBytes w).getD 1 0 = w / 2^8 % 2^8 := rfl

lemma wordBytes_getD2 (w : Nat) : (wordBytes w).getD 2 0 = w / 2^16 % 2^8 := rfl

lemma wordBytes_getD3 (w : Nat) : (wordBytes w).getD 3 0 = w / 2^24 % 2^8 := rfl

lemma bswap_byte0 (x : Nat) : bswap_32 x % 2^8 = x / 2^24 % 2^8 := by
  unfold bswap_32
  have h0 : x % 2^8 < 256 := by omega
  have h1 : x / 2^8 % 2^8 < 256 := by omega
  have h2 : x / 2^16 % 2^8 < 256 := by omega
  have h3 : x / 2^24 % 2^8 < 256 := by omega
  generalize x % 2^8 = b0 at h0 ⊢
  generalize x / 2^8 % 2^8 = b1 at h1 ⊢
  generalize x / 2^16 % 2^8 = b2 at h2 ⊢
  generalize x / 2^24 % 2^8 = b3 at h3 ⊢
  omega

lemma bswap_byte1 (x : Nat) : bswap_32 x / 2^8 % 2^8 = x / 2^16 % 2^8 := by
  unfold bswap_32
  have h0 : x % 2^8 < 256 := by omega
  have h1 : x / 2^8 % 2^8 < 256 := by omega
  have h2 : x / 2^16 % 2^8 < 256 := by omega
  have h3 : x / 2^24 % 2^8 < 256 := by omega
  generalize x % 2^8 = b0 at h0 ⊢
  generalize x / 2^8 % 2^8 = b1 at h1 ⊢
  generalize x / 2^16 % 2^8 = b2 at h2 ⊢
  generalize x / 2^24 % 2^8 = b3 at h3 ⊢
  omega

lemma bswap_byte2 (x : Nat) : bswap_32 x / 2^16 % 2^8 = x / 2^8 % 2^8 := by
  unfold bswap_32
  have h0 : x % 2^8 < 256 := by omega
  have h1 : x / 2^8 % 2^8 < 256 := by omega
  have h2 : x / 2^16 % 2^8 < 256 := by omega
  have h3 : x / 2^24 % 2^8 < 256 := by omega
  generalize x % 2^8 = b0 at h0 ⊢
  generalize x / 2^8 % 2^8 = b1 at h1 ⊢
  generalize x / 2^16 % 2^8 = b2 at h2 ⊢
  generalize x / 2^24 % 2^8 = b3 at h3 ⊢
  omega

lemma bswap_byte3 (x : Nat) : bswap_32 x / 2^24 % 2^8 = x % 2^8 := by
  unfold bswap_32
  have h0 : x % 2^8 < 256 := by omega
  have h1 : x / 2^8 % 2^8 < 256 := by omega
  have h2 : x / 2^16 % 2^8 < 256 := by omega
  have h3 : x / 2^24 % 2^8 < 256 := by omega
  generalize x % 2^8 = b0 at h0 ⊢
  generalize x / 2^8 % 2^8 = b1 at h1 ⊢
  generalize x / 2^16 % 2^8 = b2 at h2 ⊢
  generalize x / 2^24 % 2^8 = b3 at h3 ⊢
  omega

lemma byte_recompose (x : Nat) (hx : x < 2^32) :
    x / 2^24 % 2^8 * 2^24 + x / 2^16 % 2^8 * 2^16 + x / 2^8 % 2^8 * 2^8 + x % 2^8 = x := by
  omega

lemma lastBlock_bitlength (c : sha256_ctx) (hm : c.message.length = 64) :
    be64 ((lastBlock c).drop 56) = c.length * 8 % 2^64 := by
  unfold be64
  rw [getD_drop, getD_drop, getD_drop, getD_drop, getD_drop, getD_drop, getD_drop, getD_drop]
  rw [show (56:Nat) + 0 = 56 + 0 from rfl]
  rw [lastBlock_getD_word14 c hm 0 (by omega),
    show (56:Nat) + 1 = 56 + 1 from rfl, lastBlock_getD_word14 c hm 1 (by omega),
    show (56:Nat) + 2 = 56 + 2 from rfl, lastBlock_getD_word14 c hm 2 (by omega),
    show (56:Nat) + 3 = 56 + 3 from rfl, lastBlock_getD_word14 c hm 3 (by omega),
    show (56:Nat) + 4 = 60 + 0 from rfl, lastBlock_getD_word15 c hm 0 (by omega),
    show (56:Nat) + 5 = 60 + 1 from rfl, lastBlock_getD_word15 c hm 1 (by omega),
    show (56:Nat) + 6 = 60 + 2 from rfl, lastBlock_getD_word15 c hm 2 (by omega),
    show (56:Nat) + 7 = 60 + 3 from rfl, lastBlock_getD_word15 c hm 3 (by omega)]
  rw [wordBytes_getD0, wordBytes_getD1, wordBytes_getD2, wordBytes_getD3,
    wordBytes_getD0, wordBytes_getD1, wordBytes_getD2, wordBytes_getD3,
    bswap_byte0, bswap_byte1, bswap_byte2, bswap_byte3,
    bswap_byte0, bswap_byte1, bswap_byte2, bswap_byte3,
    Nat.shiftRight_eq_div_pow, Nat.shiftLeft_eq]
  set H := c.length / 2^29 % 2^32 with hHdef
  set L := c.length * 2^3 % 2^64 % 2^32 with hLdef
  have hH : H < 2^32 := Nat.mod_lt _ (by norm_num)
  have hL : L < 2^32 := Nat.mod_lt _ (by norm_num)
  have hrel : H * 2^32 + L = c.length * 8 % 2^64 := by
    rw [hHdef, hLdef]
    omega
  have r1 := byte_recompose H hH
  have r2 := byte_recompose L hL
  omega

/-! ### Small computation rules for `Hash_Init` -/

lemma init_length (b : Nat) (c : sha256_ctx) : (Hash_Init b c).length = 0 := rfl

lemma init_hash (b : Nat) (c : sha256_ctx) : (Hash_Init b c).hash = SHA256_H0 := rfl

lemma pendingOf_init (b : Nat) (c : sha256_ctx) : pendingOf (Hash_Init b c) = [] := rfl

/-! ### Claims -/

/-- C1: Split-invariance.  For every starting context with a 64-byte buffer,
every variant argument, and every partitioning of a message into chunks
(empty chunks allowed), `Hash_Init; Hash_Update(C1); ...; Hash_Update(Cn);
Hash_Final` produces the same digest as the one-shot `SHA256_Digest` on the
joined message, and the context reaches the same hash state and the same
`total_length` as the one-shot update path. -/
theorem split_invariance (c : sha256_ctx) (b : Nat) (chunks : List (List Nat))
    (hm : c.message.length = 64) :
    Hash_Final (updates (Hash_Init b c) chunks) = SHA256_Digest c chunks.flatten ∧
    (updates (Hash_Init b c) chunks).hash =
      (Hash_Update (Hash_Init 256 c) chunks.flatten).hash ∧
    (updates (Hash_Init b c) chunks).length =
      (Hash_Update (Hash_Init 256 c) chunks.flatten).length := by
  have hb : Hash_Init b c = Hash_Init 256 c := rfl
  have hm2 : (Hash_Init 256 c).message.length = 64 := hm
  rw [hb]
  obtain ⟨m1, m2, m3, m4, m5⟩ := updates_sim chunks (Hash_Init 256 c) hm2
    (by rw [init_length]; norm_num)
  obtain ⟨s1, s2, s3, s4, s5⟩ := update_sim (Hash_Init 256 c) chunks.flatten hm2
  refine ⟨?_, ?_, ?_⟩
  · show Hash_Final (updates (Hash_Init 256 c) chunks) =
      Hash_Final (Hash_Update (Hash_Init 256 c) chunks.flatten)
    exact final_congr _ _ m4 s4 (by rw [m3, s3]) (by rw [m1, s1]) (by rw [m2, s2])
      (by rw [m5, s5])
  · rw [m1, s1]
  · rw [m3, s3]

theorem split_invariance_witness :
    sctx0.message.length = 64 ∧
    (Hash_Final (updates (Hash_Init 224 sctx0) [[1, 2], [], [3]]) =
        SHA256_Digest sctx0 ([[1, 2], [], [3]] : List (List Nat)).flatten ∧
      (updates (Hash_Init 224 sctx0) [[1, 2], [], [3]]).hash =
        (Hash_Update (Hash_Init 256 sctx0) ([[1, 2], [], [3]] : List (List Nat)).flatten).hash ∧
      (updates (Hash_Init 224 sctx0) [[1, 2], [], [3]]).length =
        (Hash_Update (Hash_Init 256 sctx0) ([[1, 2], [], [3]] : List (List Nat)).flatten).length) :=
  ⟨rfl, split_invariance sctx0 224 [[1, 2], [], [3]] rfl⟩

/-- C2: Known-vector correctness for SHA-256: `SHA256_Digest` of the empty
message is e3b0c442...b855 and of the 3-byte message "abc" (bytes 61 62 63)
is ba7816bf...15ad. -/
theorem sha256_known_vectors :
    SHA256_Digest sctx0 [] =
      [0xe3, 0xb0, 0xc4, 0x42, 0x98, 0xfc, 0x1c, 0x14, 0x9a, 0xfb, 0xf4, 0xc8,
       0x99, 0x6f, 0xb9, 0x24, 0x27, 0xae, 0x41, 0xe4, 0x64, 0x9b, 0x93, 0x4c,
       0xa4, 0x95, 0x99, 0x1b, 0x78, 0x52, 0xb8, 0x55] ∧
    SHA256_Digest sctx0 [0x61, 0x62, 0x63] =
      [0xba, 0x78, 0x16, 0xbf, 0x8f, 0x01, 0xcf, 0xea, 0x41, 0x41, 0x40, 0xde,
       0x5d, 0xae, 0x22, 0x23, 0xb0, 0x03, 0x61, 0xa3, 0x96, 0x17, 0x7a, 0x9c,
       0xb4, 0x10, 0xff, 0x61, 0xf2, 0x00, 0x15, 0xad] :=
  ⟨by decide, by decide⟩

/-- C3 counterexample: `Hash_Init(224)` does not implement SHA-224: the
digest length is 32 rather than 28, the state is not the SHA-224 IV, and
`Hash_Init(224); Hash_Update("abc"); Hash_Final` does not return the
28-byte SHA-224 digest of "abc". -/
theorem sha224_counterexample :
    (Hash_Init 224 sctx0).digest_length = 32 ∧
    (Hash_Init 224 sctx0).hash ≠
      [0xc1059ed8, 0x367cd507, 0x3070dd17, 0xf70e5939,
       0xffc00b31, 0x68581511, 0x64f98fa7, 0xbefa4fa4] ∧
    Hash_Final (Hash_Update (Hash_Init 224 sctx0) [0x61, 0x62, 0x63]) ≠
      [0x23, 0x09, 0x7d, 0x22, 0x34, 0x05, 0xd8, 0x22, 0x86, 0x42, 0xa4, 0x77,
       0xbd, 0xa2, 0x55, 0xb3, 0x2a, 0xad, 0xbc, 0xe4, 0xbd, 0xa0, 0xb3, 0xf7,
       0xe3, 0x6c, 0x9d, 0xa7] :=
  ⟨rfl, by decide, by decide⟩

/-- C3 amended: `Hash_Init` ignores the requested variant, so variant 224
behaves exactly as SHA-256: the state is the SHA-256 IV, `digest_length`
is 32, and `Hash_Init(224); Hash_Update("abc"); Hash_Final` returns the
32-byte SHA-256 digest of "abc". -/
theorem sha224_behaves_as_sha256 (c : sha256_ctx) :
    (Hash_Init 224 c).digest_length = 32 ∧
    (Hash_Init 224 c).hash = SHA256_H0 ∧
    Hash_Final (Hash_Update (Hash_Init 224 c) [0x61, 0x62, 0x63]) =
      SHA256_Digest c [0x61, 0x62, 0x63] ∧
    Hash_Final (Hash_Update (Hash_Init 224 sctx0) [0x61, 0x62, 0x63]) =
      [0xba, 0x78, 0x16, 0xbf, 0x8f, 0x01, 0xcf, 0xea, 0x41, 0x41, 0x40, 0xde,
       0x5d, 0xae, 0x22, 0x23, 0xb0, 0x03, 0x61, 0xa3, 0x96, 0x17, 0x7a, 0x9c,
       0xb4, 0x10, 0xff, 0x61, 0xf2, 0x00, 0x15, 0xad] :=
  ⟨rfl, rfl, rfl, by decide⟩

/-- C4: Compression-engine correctness: for every 8-word state below `2^32`
and every 64-byte block, `sha256_process_block` (with its optimized
`ch`/`maj` macro forms and circular schedule buffer) computes exactly the
FIPS 180-4 SHA-256 compression function `fips_compress` applied to the
block interpreted as sixteen big-endian words. -/
theorem process_block_eq_fips (hash blk : List Nat) (hh : ∀ w ∈ hash, w < 2^32) :
    sha256_process_block hash blk = fips_compress hash (beWords blk) :=
  process_block_fips hash blk hh

theorem process_block_eq_fips_witness :
    (∀ w ∈ SHA256_H0, w < 2^32) ∧
    sha256_process_block SHA256_H0 (List.replicate 64 0) =
      fips_compress SHA256_H0 (beWords (List.replicate 64 0)) :=
  ⟨by decide, process_block_eq_fips SHA256_H0 (List.replicate 64 0) (by decide)⟩

/-- C5: Schedule-representation equivalence: for every block and every
round `t < 64`, the datum produced at round `t` by the 16-entry circular
buffer with modulo-16 indexing (`roundData`, the `RECALCULATE_W` macro)
equals entry `t` of the full 64-entry FIPS message schedule `schedule` of
the big-endian block words. -/
theorem circular_schedule_eq_full (blk : List Nat) (t : Nat) (ht : t < 64) :
    (roundData blk (wEvol blk t) t).1 = (schedule (beWords blk)).getD t 0 :=
  roundData_schedule blk t ht

theorem circular_schedule_eq_full_witness :
    20 < 64 ∧
    (roundData (List.range 64) (wEvol (List.range 64) 20) 20).1 =
      (schedule (beWords (List.range 64))).getD 20 0 :=
  ⟨by decide, circular_schedule_eq_full (List.range 64) 20 (by decide)⟩

/-- C6: Finalizer padding/length structure: for every context with a
64-byte buffer, `Hash_Final` compresses exactly two blocks (one extra
zero-padded block) precisely when `total_length mod 64 ≥ 56` (equivalently,
when the word index after placing the padding bit exceeds 14), one block
otherwise, and in all cases the last block carries `total_length * 8` as a
big-endian 64-bit integer in its final eight bytes (words 14 and 15). -/
theorem final_padding_structure (c : sha256_ctx) (hm : c.message.length = 64) :
    ((finalBlocks c).length = 2 ↔ 56 ≤ c.length % 64) ∧
    ((finalBlocks c).length = 1 ↔ c.length % 64 < 56) ∧
    be64 ((lastBlock c).drop 56) = c.length * 8 % 2^64 ∧
    Hash_Final c =
      outBytes ((finalBlocks c).foldl sha256_process_block c.hash) c.digest_length := by
  refine ⟨?_, ?_, lastBlock_bitlength c hm, Hash_Final_eq c⟩
  · unfold finalBlocks
    split_ifs with h
    · simp
      omega
    · simp
      omega
  · unfold finalBlocks
    split_ifs with h
    · simp
      omega
    · simp
      omega

theorem final_padding_structure_witness :
    (Hash_Update (Hash_Init 256 sctx0) [1, 2, 3]).message.length = 64 ∧
    (((finalBlocks (Hash_Update (Hash_Init 256 sctx0) [1, 2, 3])).length = 2 ↔
        56 ≤ (Hash_Update (Hash_Init 256 sctx0) [1, 2, 3]).length % 64) ∧
      ((finalBlocks (Hash_Update (Hash_Init 256 sctx0) [1, 2, 3])).length = 1 ↔
        (Hash_Update (Hash_Init 256 sctx0) [1, 2, 3]).length % 64 < 56) ∧
      be64 ((lastBlock (Hash_Update (Hash_Init 256 sctx0) [1, 2, 3])).drop 56) =
        (Hash_Update (Hash_Init 256 sctx0) [1, 2, 3]).length * 8 % 2^64 ∧
      Hash_Final (Hash_Update (Hash_Init 256 sctx0) [1, 2, 3]) =
        outBytes
          ((finalBlocks (Hash_Update (Hash_Init 256 sctx0) [1, 2, 3])).foldl
            sha256_process_block (Hash_Update (Hash_Init 256 sctx0) [1, 2, 3]).hash)
          (Hash_Update (Hash_Init 256 sctx0) [1, 2, 3]).digest_length) :=
  ⟨by decide, final_padding_structure (Hash_Update (Hash_Init 256 sctx0) [1, 2, 3]) (by decide)⟩

/-- C7: Context invariant: after `Hash_Init` and any sequence of
`Hash_Update` calls with total input `M = chunks.flatten`, the context
satisfies: `total_length` is the byte count of `M` (mod `2^64`);
`total_length mod 64` equals the number of valid bytes buffered; the
buffered bytes are exactly the uncompressed tail of `M` past the last
complete 64-byte block; and the hash state is the chaining value obtained
by compressing exactly the complete 64-byte blocks of `M`. -/
theorem context_invariant (c : sha256_ctx) (b : Nat) (chunks : List (List Nat))
    (hm : c.message.length = 64) :
    (updates (Hash_Init b c) chunks).length = chunks.flatten.length % 2^64 ∧
    (updates (Hash_Init b c) chunks).length % 64 =
      (pendingOf (updates (Hash_Init b c) chunks)).length ∧
    pendingOf (updates (Hash_Init b c) chunks) =
      chunks.flatten.drop (chunks.flatten.length - chunks.flatten.length % 64) ∧
    (updates (Hash_Init b c) chunks).hash =
      (completeBlocks chunks.flatten).foldl sha256_process_block SHA256_H0 := by
  have hm2 : (Hash_Init b c).message.length = 64 := hm
  obtain ⟨m1, m2, m3, m4, m5⟩ := updates_sim chunks (Hash_Init b c) hm2
    (by rw [init_length]; norm_num)
  simp only [init_length, pendingOf_init, init_hash, List.nil_append] at m1 m2 m3
  obtain ⟨t1, t2⟩ := absorb_tail_spec SHA256_H0 chunks.flatten
  refine ⟨?_, ?_, ?_, ?_⟩
  · rw [m3]
    omega
  · rw [m3, m2, t1]
    omega
  · rw [m2, t2]
  · rw [m1, absorb_fst_blocks]

theorem context_invariant_witness :
    sctx0.message.length = 64 ∧
    ((updates (Hash_Init 256 sctx0) [[1], [2]]).length =
        ([[1], [2]] : List (List Nat)).flatten.length % 2^64 ∧
      (updates (Hash_Init 256 sctx0) [[1], [2]]).length % 64 =
        (pendingOf (updates (Hash_Init 256 sctx0) [[1], [2]])).length ∧
      pendingOf (updates (Hash_Init 256 sctx0) [[1], [2]]) =
        ([[1], [2]] : List (List Nat)).flatten.drop
          (([[1], [2]] : List (List Nat)).flatten.length -
            ([[1], [2]] : List (List Nat)).flatten.length % 64) ∧
      (updates (Hash_Init 256 sctx0) [[1], [2]]).hash =
        (completeBlocks ([[1], [2]] : List (List Nat)).flatten).foldl
          sha256_process_block SHA256_H0) :=
  ⟨rfl, context_invariant sctx0 256 [[1], [2]] rfl⟩

/-- C8: Partial-fill frame property: when `Hash_Update` is called on a
context with `0 < total_length mod 64` buffered bytes and data strictly
shorter than the remaining buffer space, it only copies the data into the
buffer at offset `total_length mod 64`: the hash state is unchanged (no
compression runs), `total_length` grows by exactly the data length, the
copied bytes land at offsets `index..index+len`, and every other buffer
byte is unchanged. -/
theorem partial_fill_frame (c : sha256_ctx) (data : List Nat)
    (hm : c.message.length = 64) (hl : c.length < 2^64)
    (hidx : 0 < c.length % 64) (hsz : data.length < 64 - c.length % 64) :
    (Hash_Update c data).hash = c.hash ∧
    (Hash_Update c data).length = c.length + data.length ∧
    (∀ i, i < data.length →
      (Hash_Update c data).message.getD (c.length % 64 + i) 0 = data.getD i 0) ∧
    (∀ j, j < 64 → (j < c.length % 64 ∨ c.length % 64 + data.length ≤ j) →
      (Hash_Update c data).message.getD j 0 = c.message.getD j 0) ∧
    (Hash_Update c data).digest_length = c.digest_length := by
  rw [update_case_small c data (by omega) hsz]
  refine ⟨rfl, ?_, ?_, ?_, rfl⟩
  · show (c.length + data.length) % 2^64 = c.length + data.length
    omega
  · intro i hi
    show (writeBytes c.message (c.length % 64) data).getD (c.length % 64 + i) 0 = _
    rw [writeBytes_getD, if_pos (by omega)]
    congr 1
    omega
  · intro j hj hside
    show (writeBytes c.message (c.length % 64) data).getD j 0 = _
    rw [writeBytes_getD, if_neg (by omega)]

theorem partial_fill_frame_witness :
    ((Hash_Update (Hash_Init 256 sctx0) [7]).message.length = 64 ∧
      (Hash_Update (Hash_Init 256 sctx0) [7]).length < 2^64 ∧
      0 < (Hash_Update (Hash_Init 256 sctx0) [7]).length % 64 ∧
      ([5, 6] : List Nat).length < 64 - (Hash_Update (Hash_Init 256 sctx0) [7]).length % 64) ∧
    ((Hash_Update (Hash_Update (Hash_Init 256 sctx0) [7]) [5, 6]).hash =
        (Hash_Update (Hash_Init 256 sctx0) [7]).hash ∧
      (Hash_Update (Hash_Update (Hash_Init 256 sctx0) [7]) [5, 6]).length =
        (Hash_Update (Hash_Init 256 sctx0) [7]).length + ([5, 6] : List Nat).length ∧
      (∀ i, i < ([5, 6] : List Nat).length →
        (Hash_Update (Hash_Update (Hash_Init 256 sctx0) [7]) [5, 6]).message.getD
          ((Hash_Update (Hash_Init 256 sctx0) [7]).length % 64 + i) 0 =
          ([5, 6] : List Nat).getD i 0) ∧
      (∀ j, j < 64 →
        (j < (Hash_Update (Hash_Init 256 sctx0) [7]).length % 64 ∨
          (Hash_Update (Hash_Init 256 sctx0) [7]).length % 64 + ([5, 6] : List Nat).length ≤ j) →
        (Hash_Update (Hash_Update (Hash_Init 256 sctx0) [7]) [5, 6]).message.getD j 0 =
          (Hash_Update (Hash_Init 256 sctx0) [7]).message.getD j 0) ∧
      (Hash_Update (Hash_Update (Hash_Init 256 sctx0) [7]) [5, 6]).digest_length =
        (Hash_Update (Hash_Init 256 sctx0) [7]).digest_length) :=
  ⟨⟨by decide, by decide, by decide, by decide⟩,
    partial_fill_frame (Hash_Update (Hash_Init 256 sctx0) [7]) [5, 6]
      (by decide) (by decide) (by decide) (by decide)⟩

/-- C9: No leakage from prior state: `SHA256_Digest` on the same message
started from any two contexts (for example, contexts left over from earlier
hash computations with arbitrary buffer contents, lengths and states)
yields identical output: the digest depends only on the message. -/
theorem no_context_leakage (c1 c2 : sha256_ctx) (msg : List Nat)
    (h1 : c1.message.length = 64) (h2 : c2.message.length = 64) :
    SHA256_Digest c1 msg = SHA256_Digest c2 msg := by
  have hm1 : (Hash_Init 256 c1).message.length = 64 := h1
  have hm2 : (Hash_Init 256 c2).message.length = 64 := h2
  obtain ⟨a1, a2, a3, a4, a5⟩ := update_sim (Hash_Init 256 c1) msg hm1
  obtain ⟨b1, b2, b3, b4, b5⟩ := update_sim (Hash_Init 256 c2) msg hm2
  simp only [init_length, pendingOf_init, init_hash, List.nil_append] at a1 a2 a3
  simp only [init_length, pendingOf_init, init_hash, List.nil_append] at b1 b2 b3
  show Hash_Final (Hash_Update (Hash_Init 256 c1) msg) =
    Hash_Final (Hash_Update (Hash_Init 256 c2) msg)
  exact final_congr _ _ a4 b4 (by rw [a3, b3]) (by rw [a1, b1]) (by rw [a2, b2])
    (by rw [a5, b5]; rfl)

theorem no_context_leakage_witness :
    (sctx0.message.length = 64 ∧
      (sha256_ctx.mk (List.replicate 64 171) 77 (List.replicate 8 5) 7).message.length = 64) ∧
    SHA256_Digest sctx0 [9, 9, 9] =
      SHA256_Digest (sha256_ctx.mk (List.replicate 64 171) 77 (List.replicate 8 5) 7) [9, 9, 9] :=
  ⟨⟨rfl, rfl⟩,
    no_context_leakage sctx0 (sha256_ctx.mk (List.replicate 64 171) 77 (List.replicate 8 5) 7)
      [9, 9, 9] rfl rfl⟩

/-- C10: `Hash_Init` ignores its `bits` argument entirely: for every pair
of argument values (224 and 256 included) and every context, the resulting
contexts are identical, with the SHA-256 initial constants, `length = 0`
and `digest_length = 32`. -/
theorem init_ignores_bits (b1 b2 : Nat) (c : sha256_ctx) :
    Hash_Init b1 c = Hash_Init b2 c ∧
    (Hash_Init b1 c).hash = SHA256_H0 ∧
    (Hash_Init b1 c).length = 0 ∧
    (Hash_Init b1 c).digest_length = 32 :=
  ⟨rfl, rfl, rfl, rfl⟩
